import Mathlib

/-!
# Verification of the hiveplot layout engine

Shallow embedding of `hiveplot.py` (class `HivePlot` and the helper
`get_cartesian`).  Conventions of the embedding:

* Numbers: the Python code computes with IEEE-754 doubles; we model them as
  exact rationals (`ℚ`).  The constant `np.pi` is kept abstract: every
  function that reads `np.pi` takes it as an explicit first argument `pi : ℚ`.
  Concrete instances use `np_pi`, the exact rational value of the double
  `np.pi`.  Only the final polar-to-Cartesian conversion (`get_cartesian`,
  which applies `sin`/`cos`) lives in `ℝ`.
* Group labels: the `nodes` dictionary is keyed by arbitrary hashable labels;
  `adjust_angles` compares those labels with the integer literals `0` and
  `len(self.nodes.keys())-1` and with each other using `<`, so the embedding
  takes group labels to be integers (`Int`).  Node identifiers are opaque
  and only compared for equality; they are modelled as `ℕ`.
* Dictionaries: Python 3 dicts are insertion ordered, so `self.nodes` and
  `self.edges` are association lists in insertion order.
* Errors: Python exceptions are modelled by `Except PyError`.  `KeyError`
  (from `dict[...]`) and `ValueError` (from `list.index`) are subclasses of
  `LookupError`; `AssertionError` (from `assert`) and `TypeError` (from
  ordering `None`) are not.
* Matplotlib drawing calls are out of scope; the drawing functions are
  embedded as the list of placements / curve specifications they emit.
-/

/-- Python exception kinds raised by the code under consideration. -/
inductive PyError
  | keyError
  | valueError
  | typeError
  | assertionError
deriving DecidableEq, Repr

/-- Predicate for Python's `LookupError`: it is the superclass of `KeyError` and `IndexError`;
`ValueError`, `TypeError` and `AssertionError` are not `LookupError`s. -/
def PyError.isLookupError : PyError → Bool
  | .keyError => true
  | .valueError => false
  | .typeError => false
  | .assertionError => false

/-- The exact rational value of the IEEE-754 double `np.pi`
(`884279719003555 * 2 ^ (-48)`). -/
def np_pi : ℚ := 884279719003555 / 281474976710656

/-- Matplotlib path codes used by `draw_edge`. -/
inductive PathCode
  | MOVETO
  | CURVE4
deriving DecidableEq, Repr

/-- Association-list lookup, `d[k]` on an insertion-ordered dict. -/
def findPair : List (Int × List ℕ) → Int → Option (List ℕ)
  | [], _ => none
  | (g, nl) :: rest, target => if g = target then some nl else findPair rest target

/-- Embeds `list.index(x)`: index of the first occurrence, if any. -/
def idxOf? (node : ℕ) : List ℕ → Option ℕ
  | [] => none
  | x :: rest => if x = node then some 0 else (idxOf? node rest).map (· + 1)

/-- The loop of `find_node_group_membership`: first group whose node list
contains `node`; Python falls off the loop and implicitly returns `None`. -/
def findMember : List (Int × List ℕ) → ℕ → Option Int
  | [], _ => none
  | (g, nl) :: rest, node => if node ∈ nl then some g else findMember rest node

/-- The loop variable `i` of `group_theta` after
`for i, g in enumerate(keys): if g == group: break`:
the index of the first key equal to `target`, and the *last* index when no
key matches (the loop runs to completion and `i` keeps its final value).
`target` is an `Option` because `node_theta` passes the result of
`find_node_group_membership`, which can be `None` (and `g == None` is `False`
for every key).  An empty dict would raise `NameError` in Python (loop body
never runs); that case is unreachable here (the constructor would already
have divided by zero) and is mapped to `0`. -/
def loopIdxO (target : Option Int) : List Int → ℕ
  | [] => 0
  | g :: rest =>
      if some g = target then 0
      else
        match rest with
        | [] => 0
        | _ :: _ => loopIdxO target rest + 1

/-- State of a `HivePlot` object.  The matplotlib figure/axis handles, the
colormaps, `linewidth` and `is_directed` are rendering-only state that no
layout computation reads, and are omitted.  The `(u, v, d)` edge tuples keep
only `(u, v)`: the attribute payload `d` is opaque and unused by the layout. -/
structure HivePlot where
  nodes : List (Int × List ℕ)
  edges : List (Int × List (ℕ × ℕ))
  scale : ℚ
  dot_radius : ℚ
  internal_radius : ℚ
  major_angle : ℚ
  minor_angle : ℚ
deriving Repr

/-- Embeds `HivePlot.__init__` followed by `initialize_major_angle` and
`initialize_minor_angle`:  `dot_radius = scale / 4`,
`internal_radius = scale ** 2`, `major_angle = 2π / num_groups`,
`minor_angle = 2π / (6 * num_groups)`.  (Python raises `ZeroDivisionError`
for an empty `nodes` dict; in `ℚ`, division by zero yields `0` — all claims
assume at least one group.) -/
def mkHivePlot (pi : ℚ) (nodes : List (Int × List ℕ))
    (edges : List (Int × List (ℕ × ℕ))) (scale : ℚ) : HivePlot :=
  { nodes := nodes
    edges := edges
    scale := scale
    dot_radius := scale / 4
    internal_radius := scale ^ 2
    major_angle := 2 * pi / (nodes.length : ℚ)
    minor_angle := 2 * pi / (6 * (nodes.length : ℚ)) }

/-- Embeds `simplified_edges`: all `(u, v)` pairs across every edge group. -/
def simplified_edges (H : HivePlot) : List (ℕ × ℕ) :=
  (H.edges.map Prod.snd).flatten

/-- Embeds `has_edge_within_group`: asserts that `group` is a key of `nodes`
(`AssertionError` otherwise), then scans `simplified_edges` for an edge with
both endpoints in that group's node list.  The Python function returns `True`
or falls through returning `None`; both truth values are modelled as `Bool`. -/
def has_edge_within_group (H : HivePlot) (group : Int) : Except PyError Bool :=
  match findPair H.nodes group with
  | none => .error .assertionError
  | some nodelist =>
      .ok ((simplified_edges H).any fun p => nodelist.contains p.1 && nodelist.contains p.2)

/-- Wrapper for `has_edge_within_group` as called from `adjust_angles`, where the group
argument is the result of `find_node_group_membership` and may be `None`
(`None` is never a key, so the assert fails). -/
def hewgO (H : HivePlot) : Option Int → Except PyError Bool
  | none => .error .assertionError
  | some g => has_edge_within_group H g

/-- Embeds `group_theta` applied to a possibly-`None` group object (see `loopIdxO`). -/
def group_theta_obj (H : HivePlot) (g : Option Int) : ℚ :=
  (loopIdxO g (H.nodes.map Prod.fst) : ℚ) * H.major_angle

/-- Embeds `group_theta`: position of the group in the key iteration order times the
major angle. -/
def group_theta (H : HivePlot) (group : Int) : ℚ :=
  group_theta_obj H (some group)

/-- Embeds `find_node_group_membership`: first group whose node list contains the
node, `None` if there is none. -/
def find_node_group_membership (H : HivePlot) (node : ℕ) : Option Int :=
  findMember H.nodes node

/-- Embeds `get_idx`: `self.nodes[group].index(node)` where
`group = find_node_group_membership(node)`.  For an absent node the membership
is `None` and `self.nodes[None]` raises `KeyError`. -/
def get_idx (H : HivePlot) (node : ℕ) : Except PyError ℕ :=
  match find_node_group_membership H node with
  | none => .error .keyError
  | some g =>
      match findPair H.nodes g with
      | none => .error .keyError
      | some nl =>
          match idxOf? node nl with
          | none => .error .valueError
          | some i => .ok i

/-- Embeds `node_radius`: `get_idx(node) * scale + internal_radius`. -/
def node_radius (H : HivePlot) (node : ℕ) : Except PyError ℚ :=
  match get_idx H node with
  | .error err => .error err
  | .ok i => .ok ((i : ℚ) * H.scale + H.internal_radius)

/-- Embeds `node_theta`: `group_theta(find_node_group_membership(node))`.  Note that
this never raises: for an absent node the membership is `None` and the
`group_theta` loop silently runs to its last index. -/
def node_theta (H : HivePlot) (node : ℕ) : ℚ :=
  group_theta_obj H (find_node_group_membership H node)

/-- The accumulation loop of `plot_radius` (`plot_R` before adding
`internal_radius`): max over groups of `len(nodelist) * scale`, starting
from `0`. -/
def plot_R (H : HivePlot) : ℚ :=
  H.nodes.foldl
    (fun acc gnl =>
      let proposed := (gnl.2.length : ℚ) * H.scale
      if proposed > acc then proposed else acc)
    0

/-- Embeds `plot_radius`: the loop maximum plus `internal_radius`. -/
def plot_radius (H : HivePlot) : ℚ :=
  plot_R H + H.internal_radius

/-- Embeds `set_minor_angle`: `assert angle < major_angle` (raising `AssertionError`,
the realization of the spec's `InvalidConfiguration`, before any mutation),
then store the new minor angle. -/
def set_minor_angle (H : HivePlot) (angle : ℚ) : Except PyError HivePlot :=
  if angle < H.major_angle then .ok { H with minor_angle := angle }
  else .error .assertionError

/-- Embeds `correct_negative_angle`: `angle + 2π` for negative angles. -/
def correct_negative_angle (pi : ℚ) (angle : ℚ) : ℚ :=
  if angle < 0 then 2 * pi + angle else angle

/-- Embeds `correct_angles`: flip a zero angle to `2π` when the sweep is longer than
`π` (the second test reads the possibly already-corrected `start_angle`),
then widen an equal pair by `∓ minor_angle`. -/
def correct_angles (pi : ℚ) (H : HivePlot) (start_angle end_angle : ℚ) : ℚ × ℚ :=
  let start_angle := if start_angle = 0 ∧ end_angle - start_angle > pi then 2 * pi else start_angle
  let end_angle := if end_angle = 0 ∧ end_angle - start_angle < -pi then 2 * pi else end_angle
  if start_angle = end_angle then
    (start_angle - H.minor_angle, end_angle + H.minor_angle)
  else
    (start_angle, end_angle)

/-- One conditional nudge inside `adjust_angles`:
`if has_edge_within_group(g): angle = correct_negative_angle(angle + delta)`. -/
def maybe_nudge (pi : ℚ) (H : HivePlot) (g : Option Int) (angle delta : ℚ) :
    Except PyError ℚ :=
  match hewgO H g with
  | .error err => .error err
  | .ok true => .ok (correct_negative_angle pi (angle + delta))
  | .ok false => .ok angle

/-- Python 3 `<` on the possibly-`None` group objects: ordering `None`
raises `TypeError`. -/
def pyLtO : Option Int → Option Int → Except PyError Bool
  | some a, some b => .ok (decide (a < b))
  | _, _ => .error .typeError

/-- Embeds `adjust_angles`: branches on the *group labels* returned by
`find_node_group_membership`, comparing them with the literals `0` and
`len(self.nodes.keys()) - 1` and with each other. -/
def adjust_angles (pi : ℚ) (H : HivePlot) (start_node : ℕ) (start_angle : ℚ)
    (end_node : ℕ) (end_angle : ℚ) : Except PyError (ℚ × ℚ) :=
  let start_group := find_node_group_membership H start_node
  let end_group := find_node_group_membership H end_node
  let last : Int := (H.nodes.length : Int) - 1
  if start_group = some 0 ∧ end_group = some last then
    match maybe_nudge pi H start_group start_angle (-H.minor_angle) with
    | .error err => .error err
    | .ok s =>
        match maybe_nudge pi H end_group end_angle H.minor_angle with
        | .error err => .error err
        | .ok e => .ok (s, e)
  else if start_group = some last ∧ end_group = some 0 then
    match maybe_nudge pi H start_group start_angle H.minor_angle with
    | .error err => .error err
    | .ok s =>
        match maybe_nudge pi H end_group end_angle (-H.minor_angle) with
        | .error err => .error err
        | .ok e => .ok (s, e)
  else
    match pyLtO start_group end_group with
    | .error err => .error err
    | .ok true =>
        match maybe_nudge pi H end_group end_angle (-H.minor_angle) with
        | .error err => .error err
        | .ok e =>
            match maybe_nudge pi H start_group start_angle H.minor_angle with
            | .error err => .error err
            | .ok s => .ok (s, e)
    | .ok false =>
        match pyLtO end_group start_group with
        | .error err => .error err
        | .ok true =>
            match maybe_nudge pi H start_group start_angle (-H.minor_angle) with
            | .error err => .error err
            | .ok s =>
                match maybe_nudge pi H end_group end_angle H.minor_angle with
                | .error err => .error err
                | .ok e => .ok (s, e)
        | .ok false => .ok (start_angle, end_angle)

/-- A node placement emitted by `plot_nodes`: the node, its radius
`internal_radius + i * scale` and its angle.  (The actual drawing converts
the pair through `get_cartesian` and adds the marker radius and color;
those are rendering concerns.) -/
def plot_nodes (H : HivePlot) (nodelist : List ℕ) (theta : ℚ) :
    List (ℕ × ℚ × ℚ) :=
  nodelist.enum.map fun p => (p.2, H.internal_radius + (p.1 : ℚ) * H.scale, theta)

/-- The loop body of `add_axes_and_nodes` for one `(group, nodelist)` entry:
with a within-group edge the axis is duplicated (`theta - minor_angle`, then
`theta - minor_angle + 2 * minor_angle`), otherwise a single axis at `theta`. -/
def place_group (H : HivePlot) (group : Int) (nodelist : List ℕ) :
    Except PyError (List (ℕ × ℚ × ℚ)) :=
  match has_edge_within_group H group with
  | .error err => .error err
  | .ok true =>
      .ok (plot_nodes H nodelist (group_theta H group - H.minor_angle) ++
        plot_nodes H nodelist (group_theta H group - H.minor_angle + 2 * H.minor_angle))
  | .ok false => .ok (plot_nodes H nodelist (group_theta H group))

/-- The iteration of `add_axes_and_nodes` over the `nodes` dict. -/
def axes_nodes_list (H : HivePlot) : List (Int × List ℕ) →
    Except PyError (List (ℕ × ℚ × ℚ))
  | [] => .ok []
  | (g, nl) :: rest =>
      match place_group H g nl with
      | .error err => .error err
      | .ok ps =>
          match axes_nodes_list H rest with
          | .error err => .error err
          | .ok qs => .ok (ps ++ qs)

/-- Embeds `add_axes_and_nodes`: all node placements, group by group. -/
def add_axes_and_nodes (H : HivePlot) : Except PyError (List (ℕ × ℚ × ℚ)) :=
  axes_nodes_list H H.nodes

/-- The angle pipeline of `draw_edge`: both radii are computed first (and can
raise), then `correct_angles` and `adjust_angles` run on the two
`node_theta` values. -/
def edge_angles (pi : ℚ) (H : HivePlot) (n1 n2 : ℕ) : Except PyError (ℚ × ℚ) :=
  match node_radius H n1 with
  | .error err => .error err
  | .ok _ =>
      match node_radius H n2 with
      | .error err => .error err
      | .ok _ =>
          let p := correct_angles pi H (node_theta H n1) (node_theta H n2)
          adjust_angles pi H n1 p.1 n2 p.2

/-- The polar data of the four curve vertices built by `draw_edge`:
start, two middle control points (radii `np.min`/`np.max` of the endpoint
radii, swapped back when `start_radius > end_radius`; both at the mean of the
corrected angles), and end. -/
def draw_edge_polar (pi : ℚ) (H : HivePlot) (n1 n2 : ℕ) :
    Except PyError ((ℚ × ℚ) × (ℚ × ℚ) × (ℚ × ℚ) × (ℚ × ℚ)) :=
  match node_radius H n1, node_radius H n2, edge_angles pi H n1 n2 with
  | .ok start_radius, .ok end_radius, .ok (start_theta, end_theta) =>
      let middle1_radius := min start_radius end_radius
      let middle2_radius := max start_radius end_radius
      let p := if start_radius > end_radius then (middle2_radius, middle1_radius)
        else (middle1_radius, middle2_radius)
      let middle_theta := (start_theta + end_theta) / 2
      .ok ((start_radius, start_theta), (p.1, middle_theta),
        (p.2, middle_theta), (end_radius, end_theta))
  | .error err, _, _ => .error err
  | _, .error err, _ => .error err
  | _, _, .error err => .error err

/-- Embeds `get_cartesian`: `x = r·sin(θ)`, `y = r·cos(θ)`. -/
noncomputable def get_cartesian (r theta : ℝ) : ℝ × ℝ :=
  (r * Real.sin theta, r * Real.cos theta)

/-- Embeds `draw_edge`: the emitted path — four Cartesian vertices together with the
codes `[MOVETO, CURVE4, CURVE4, CURVE4]`. -/
noncomputable def draw_edge (pi : ℚ) (H : HivePlot) (n1 n2 : ℕ) :
    Except PyError (List (ℝ × ℝ) × List PathCode) :=
  match draw_edge_polar pi H n1 n2 with
  | .error err => .error err
  | .ok (p1, p2, p3, p4) =>
      .ok ([get_cartesian (p1.1 : ℝ) (p1.2 : ℝ), get_cartesian (p2.1 : ℝ) (p2.2 : ℝ),
        get_cartesian (p3.1 : ℝ) (p3.2 : ℝ), get_cartesian (p4.1 : ℝ) (p4.2 : ℝ)],
        [PathCode.MOVETO, PathCode.CURVE4, PathCode.CURVE4, PathCode.CURVE4])

/-- Restates `correct_angles` as the specification words it: start replaced by `2π`
when `start = 0` and `end − start > π`; end replaced by `2π` when `end = 0`
and `end − start < −π`; then an exactly-equal pair is widened by
`∓ minor_angle`; any other pair is returned unchanged. -/
def correctAnglesSpec (pi minor start_angle end_angle : ℚ) : ℚ × ℚ :=
  let s := if start_angle = 0 ∧ end_angle - start_angle > pi then 2 * pi else start_angle
  let e := if end_angle = 0 ∧ end_angle - s < -pi then 2 * pi else end_angle
  if s = e then (s - minor, e + minor) else (s, e)

/-!
## Concrete instances

Small `HivePlot` objects used as witnesses and counterexamples.  Node
identifiers are the numerals `1, 2, 3, 4, 5` (`99` is used as a node that
belongs to no group).
-/

/-- Two groups whose *labels* (`1`, then `0`) are in the reverse of their
iteration order; both groups have a within-group edge, plus one cross-group
edge `(1, 3)`. -/
def hive1 : HivePlot :=
  mkHivePlot np_pi [(1, [1, 2]), (0, [3, 4])] [(0, [(1, 2), (3, 4), (1, 3)])] 10

/-- A single group labelled `0` with a within-group edge `(3, 1)`. -/
def hive3 : HivePlot :=
  mkHivePlot np_pi [(0, [1, 3])] [(0, [(3, 1)])] 10

/-- Two groups labelled in iteration order; the first group (at angle `0`)
has a within-group edge `(1, 3)`. -/
def hive4 : HivePlot :=
  mkHivePlot np_pi [(0, [1, 3]), (1, [5])] [(0, [(1, 3)])] 10

/-- Two singleton groups and no edges. -/
def hive5 : HivePlot :=
  mkHivePlot np_pi [(0, [1]), (1, [3])] [] 10

/-- The four Cartesian vertices `draw_edge` emits for the edge `(3, 1)` of
`hive3`. -/
noncomputable def hive3_verts : List (ℝ × ℝ) :=
  [get_cartesian ((110 : ℚ) : ℝ) ((4 * np_pi / 3 : ℚ) : ℝ),
    get_cartesian ((110 : ℚ) : ℝ) ((np_pi : ℚ) : ℝ),
    get_cartesian ((100 : ℚ) : ℝ) ((np_pi : ℚ) : ℝ),
    get_cartesian ((100 : ℚ) : ℝ) ((2 * np_pi / 3 : ℚ) : ℝ)]

/-!
## Evaluation facts about the concrete instances
-/

lemma hive3_node_radius_start : node_radius hive3 3 = .ok 110 := by
  norm_num [node_radius, get_idx, find_node_group_membership, findMember, findPair,
    idxOf?, hive3, mkHivePlot]

lemma hive3_node_radius_end : node_radius hive3 1 = .ok 100 := by
  norm_num [node_radius, get_idx, find_node_group_membership, findMember, findPair,
    idxOf?, hive3, mkHivePlot]

lemma hive3_edge_angles : edge_angles np_pi hive3 3 1 = .ok (4 * np_pi / 3, 2 * np_pi / 3) := by
  norm_num [edge_angles, node_radius, get_idx, node_theta,
    find_node_group_membership, findMember, findPair, idxOf?, group_theta_obj, loopIdxO,
    correct_angles, adjust_angles, maybe_nudge, hewgO, has_edge_within_group,
    simplified_edges, correct_negative_angle, pyLtO, hive3, mkHivePlot, np_pi]

lemma hive3_polar : draw_edge_polar np_pi hive3 3 1 =
    .ok ((110, 4 * np_pi / 3), (110, np_pi), (100, np_pi), (100, 2 * np_pi / 3)) := by
  norm_num [draw_edge_polar, edge_angles, node_radius, get_idx, node_theta,
    find_node_group_membership, findMember, findPair, idxOf?, group_theta_obj, loopIdxO,
    correct_angles, adjust_angles, maybe_nudge, hewgO, has_edge_within_group,
    simplified_edges, correct_negative_angle, pyLtO, hive3, mkHivePlot, np_pi]

lemma hive4_edge_angles : edge_angles np_pi hive4 1 3 = .ok (-np_pi / 6, np_pi / 6) := by
  norm_num [edge_angles, node_radius, get_idx, node_theta,
    find_node_group_membership, findMember, findPair, idxOf?, group_theta_obj, loopIdxO,
    correct_angles, adjust_angles, maybe_nudge, hewgO, has_edge_within_group,
    simplified_edges, correct_negative_angle, pyLtO, hive4, mkHivePlot, np_pi]

lemma np_pi_pos : 0 < np_pi := by norm_num [np_pi]
/-!
## Claim C9 — polar-to-Cartesian conversion
-/

/-- C9: for all `r` and `θ`, `get_cartesian(r, θ) = (r·sin θ, r·cos θ)` —
sine for the x coordinate and cosine for the y coordinate. -/
theorem c9_get_cartesian (r theta : ℝ) :
    get_cartesian r theta = (r * Real.sin theta, r * Real.cos theta) ∧
    (get_cartesian r theta).1 = r * Real.sin theta ∧
    (get_cartesian r theta).2 = r * Real.cos theta :=
  ⟨rfl, rfl, rfl⟩

/-!
## Claim C8 — major and minor angle
-/

/-- C8 counterexample: for one group, the default minor angle is
`major_angle / 6`, not `major_angle / 3` as claimed. -/
theorem c8_counterexample :
    hive3.minor_angle = hive3.major_angle / 6 ∧
    hive3.minor_angle ≠ hive3.major_angle / 3 := by
  norm_num [hive3, mkHivePlot, np_pi]

/-- C8 (amended): for `n ≥ 1` groups, `major_angle = 2π/n` and the default
`minor_angle = 2π/(6n)`, which is one *sixth* (not one third) of the major
angle. -/
theorem c8_angles (pi : ℚ) (nodes : List (Int × List ℕ))
    (edges : List (Int × List (ℕ × ℕ))) (scale : ℚ) (_hn : 1 ≤ nodes.length) :
    (mkHivePlot pi nodes edges scale).major_angle = 2 * pi / (nodes.length : ℚ) ∧
    (mkHivePlot pi nodes edges scale).minor_angle = 2 * pi / (6 * (nodes.length : ℚ)) ∧
    (mkHivePlot pi nodes edges scale).minor_angle =
      (mkHivePlot pi nodes edges scale).major_angle / 6 := by
  refine ⟨rfl, rfl, ?_⟩
  show 2 * pi / (6 * (nodes.length : ℚ)) = 2 * pi / (nodes.length : ℚ) / 6
  rw [div_div, mul_comm (nodes.length : ℚ) 6]

/-- C8 witness: the amended claim evaluated on a two-group layout. -/
theorem c8_angles_witness :
    (mkHivePlot np_pi [(0, [1]), (1, [3])] [] 10).major_angle =
      2 * np_pi / (([(0, [1]), (1, [3])] : List (Int × List ℕ)).length : ℚ) ∧
    (mkHivePlot np_pi [(0, [1]), (1, [3])] [] 10).minor_angle =
      2 * np_pi / (6 * (([(0, [1]), (1, [3])] : List (Int × List ℕ)).length : ℚ)) ∧
    (mkHivePlot np_pi [(0, [1]), (1, [3])] [] 10).minor_angle =
      (mkHivePlot np_pi [(0, [1]), (1, [3])] [] 10).major_angle / 6 :=
  c8_angles np_pi [(0, [1]), (1, [3])] [] 10 (by decide)

/-!
## Claim C2 — `correct_angles`
-/

/-- C2: `correct_angles` agrees with the specification's case description
(`correctAnglesSpec`); an edge whose two angles are equal comes out widened
to a difference of exactly `2 · minor_angle`, and (for a positive minor
angle) the corrected pair is never degenerate. -/
theorem c2_correct_angles (pi : ℚ) (H : HivePlot) (s e : ℚ) :
    correct_angles pi H s e = correctAnglesSpec pi H.minor_angle s e ∧
    (0 < pi → s = e →
      (correct_angles pi H s e).2 - (correct_angles pi H s e).1 = 2 * H.minor_angle) ∧
    (0 < H.minor_angle →
      (correct_angles pi H s e).1 ≠ (correct_angles pi H s e).2) := by
  refine ⟨rfl, ?_, ?_⟩
  · intro hpi hse
    subst hse
    have hA : ¬(s = 0 ∧ s - s > pi) := fun h => by linarith [h.2]
    have hB : ¬(s = 0 ∧ s - s < -pi) := fun h => by linarith [h.2]
    simp only [correct_angles, if_neg hA, if_neg hB, if_pos rfl, if_true]
    ring
  · intro hm
    simp only [correct_angles]
    split_ifs <;> intro hq <;> simp only [Prod.fst, Prod.snd] at hq <;>
      first
        | linarith
        | tauto

/-- C2 witness: an equal-angle pair on a concrete layout. -/
theorem c2_correct_angles_witness :
    correct_angles np_pi hive5 np_pi np_pi = correctAnglesSpec np_pi hive5.minor_angle np_pi np_pi ∧
    (correct_angles np_pi hive5 np_pi np_pi).2 - (correct_angles np_pi hive5 np_pi np_pi).1 =
      2 * hive5.minor_angle ∧
    (correct_angles np_pi hive5 np_pi np_pi).1 ≠ (correct_angles np_pi hive5 np_pi np_pi).2 :=
  ⟨(c2_correct_angles np_pi hive5 np_pi np_pi).1,
   (c2_correct_angles np_pi hive5 np_pi np_pi).2.1 np_pi_pos rfl,
   (c2_correct_angles np_pi hive5 np_pi np_pi).2.2 (by norm_num [hive5, mkHivePlot, np_pi])⟩

/-!
## Claim C6 — `set_minor_angle`
-/

/-- C6 counterexample: the default minor angle is `major_angle / 6`, not
`major_angle / 3` as the claim's parenthetical asserts. -/
theorem c6_counterexample :
    hive5.minor_angle = hive5.major_angle / 6 ∧
    hive5.minor_angle ≠ hive5.major_angle / 3 := by
  norm_num [hive5, mkHivePlot, np_pi]

/-- C6 (amended): `set_minor_angle(angle)` fails with `AssertionError` (the
realization of the spec's `InvalidConfiguration`) exactly when
`angle ≥ major_angle`, producing no new state (so the stored minor angle is
unchanged); when `angle < major_angle` it succeeds, the stored minor angle
becomes `angle`, and `minor_angle < major_angle` holds afterwards; after
construction the default minor angle is `major_angle / 6` (not
`major_angle / 3`) and the invariant also holds. -/
theorem c6_set_minor_angle (pi : ℚ) (nodes : List (Int × List ℕ))
    (edges : List (Int × List (ℕ × ℕ))) (scale : ℚ) (H : HivePlot) (angle : ℚ)
    (hpi : 0 < pi) (hn : 1 ≤ nodes.length) :
    (H.major_angle ≤ angle → set_minor_angle H angle = .error .assertionError) ∧
    (angle < H.major_angle → set_minor_angle H angle = .ok { H with minor_angle := angle }) ∧
    (∀ H2, set_minor_angle H angle = .ok H2 →
      H2.minor_angle = angle ∧ H2.major_angle = H.major_angle ∧
      H2.minor_angle < H2.major_angle) ∧
    (mkHivePlot pi nodes edges scale).minor_angle =
      (mkHivePlot pi nodes edges scale).major_angle / 6 ∧
    (mkHivePlot pi nodes edges scale).minor_angle <
      (mkHivePlot pi nodes edges scale).major_angle := by
  refine ⟨?_, ?_, ?_, ?_, ?_⟩
  · intro h
    rw [set_minor_angle, if_neg (not_lt.mpr h)]
  · intro h
    rw [set_minor_angle, if_pos h]
  · intro H2 h
    rw [set_minor_angle] at h
    by_cases hlt : angle < H.major_angle
    · rw [if_pos hlt] at h
      injection h with h
      subst h
      exact ⟨rfl, rfl, hlt⟩
    · rw [if_neg hlt] at h
      exact Except.noConfusion h
  · show 2 * pi / (6 * (nodes.length : ℚ)) = 2 * pi / (nodes.length : ℚ) / 6
    rw [div_div, mul_comm (nodes.length : ℚ) 6]
  · show 2 * pi / (6 * (nodes.length : ℚ)) < 2 * pi / (nodes.length : ℚ)
    have hn0 : (0 : ℚ) < (nodes.length : ℚ) := by exact_mod_cast hn
    exact div_lt_div_of_pos_left (by linarith) hn0 (by linarith)

/-- C6 witness: overriding the minor angle on a concrete layout, one failing
and one succeeding override. -/
theorem c6_set_minor_angle_witness :
    set_minor_angle hive5 (2 * np_pi) = .error .assertionError ∧
    set_minor_angle hive5 1 = .ok { hive5 with minor_angle := 1 } ∧
    ({ hive5 with minor_angle := 1 } : HivePlot).minor_angle <
      ({ hive5 with minor_angle := 1 } : HivePlot).major_angle ∧
    (mkHivePlot np_pi [(0, [1]), (1, [3])] [] 10).minor_angle =
      (mkHivePlot np_pi [(0, [1]), (1, [3])] [] 10).major_angle / 6 ∧
    (mkHivePlot np_pi [(0, [1]), (1, [3])] [] 10).minor_angle <
      (mkHivePlot np_pi [(0, [1]), (1, [3])] [] 10).major_angle := by
  have T1 := c6_set_minor_angle np_pi [(0, [1]), (1, [3])] [] 10 hive5 (2 * np_pi)
    np_pi_pos (by decide)
  have T2 := c6_set_minor_angle np_pi [(0, [1]), (1, [3])] [] 10 hive5 1
    np_pi_pos (by decide)
  have hok := T2.2.1 (by norm_num [hive5, mkHivePlot, np_pi])
  exact ⟨T1.1 (by norm_num [hive5, mkHivePlot, np_pi]),
    hok, (T2.2.2.1 _ hok).2.2, T1.2.2.2.1, T1.2.2.2.2⟩

/-!
## Claim C10 — `internal_radius`
-/

/-- C10: `internal_radius` is `scale ** 2` (so `100` at the default scale of
`10`), set only by the constructor (the sole state-changing operation,
`set_minor_angle`, preserves it), and both `plot_radius` and `node_radius`
report radii offset by it. -/
theorem c10_internal_radius (pi : ℚ) (nodes : List (Int × List ℕ))
    (edges : List (Int × List (ℕ × ℕ))) (scale : ℚ) (H2 : HivePlot) (a : ℚ)
    (node : ℕ) (i : ℕ) :
    (mkHivePlot pi nodes edges scale).internal_radius = scale ^ 2 ∧
    (mkHivePlot pi nodes edges 10).internal_radius = 100 ∧
    (set_minor_angle (mkHivePlot pi nodes edges scale) a = .ok H2 →
      H2.internal_radius = scale ^ 2) ∧
    plot_radius (mkHivePlot pi nodes edges scale) =
      plot_R (mkHivePlot pi nodes edges scale) + scale ^ 2 ∧
    (get_idx (mkHivePlot pi nodes edges scale) node = .ok i →
      node_radius (mkHivePlot pi nodes edges scale) node = .ok ((i : ℚ) * scale + scale ^ 2)) := by
  refine ⟨rfl, by norm_num [mkHivePlot], ?_, rfl, ?_⟩
  · intro h
    rw [set_minor_angle] at h
    by_cases hlt : a < (mkHivePlot pi nodes edges scale).major_angle
    · rw [if_pos hlt] at h
      injection h with h
      subst h
      rfl
    · rw [if_neg hlt] at h
      exact Except.noConfusion h
  · intro h
    rw [node_radius, h]
    rfl

/-- C10 witness: the internal radius facts on a concrete layout. -/
theorem c10_internal_radius_witness :
    (mkHivePlot np_pi [(1, [1, 2]), (0, [3, 4])] [(0, [(1, 2), (3, 4), (1, 3)])] 10).internal_radius
      = 10 ^ 2 ∧
    ({ mkHivePlot np_pi [(1, [1, 2]), (0, [3, 4])] [(0, [(1, 2), (3, 4), (1, 3)])] 10 with
        minor_angle := 1 } : HivePlot).internal_radius = 10 ^ 2 ∧
    plot_radius (mkHivePlot np_pi [(1, [1, 2]), (0, [3, 4])] [(0, [(1, 2), (3, 4), (1, 3)])] 10) =
      plot_R (mkHivePlot np_pi [(1, [1, 2]), (0, [3, 4])] [(0, [(1, 2), (3, 4), (1, 3)])] 10) + 10 ^ 2 ∧
    node_radius (mkHivePlot np_pi [(1, [1, 2]), (0, [3, 4])] [(0, [(1, 2), (3, 4), (1, 3)])] 10) 3 =
      .ok ((0 : ℚ) * 10 + 10 ^ 2) := by
  have T := c10_internal_radius np_pi [(1, [1, 2]), (0, [3, 4])] [(0, [(1, 2), (3, 4), (1, 3)])] 10
    { mkHivePlot np_pi [(1, [1, 2]), (0, [3, 4])] [(0, [(1, 2), (3, 4), (1, 3)])] 10 with
        minor_angle := 1 } 1 3 0
  refine ⟨T.1, T.2.2.1 ?_, T.2.2.2.1, T.2.2.2.2 ?_⟩
  · rw [set_minor_angle, if_pos (by norm_num [mkHivePlot, np_pi])]
  · norm_num [get_idx, find_node_group_membership, findMember, findPair, idxOf?, mkHivePlot]

/-!
## Claim C7 — node placement with axis duplication
-/

lemma plot_nodes_eq (H : HivePlot) (nl : List ℕ) (theta : ℚ) :
    plot_nodes H nl theta =
      nl.enum.map (fun p => (p.2, (p.1 : ℚ) * H.scale + H.internal_radius, theta)) := by
  unfold plot_nodes
  exact List.map_congr_left fun a _ => by rw [add_comm]

/-- C7: a group with a within-group edge gets every node placed twice, at
`group_theta ∓ minor_angle`, both at radius `ordinal·scale + internal_radius`;
a group without one gets a single placement per node at `group_theta`. -/
theorem c7_place_group (H : HivePlot) (g : Int) (nl : List ℕ) :
    (has_edge_within_group H g = .ok true →
      place_group H g nl = .ok
        (nl.enum.map (fun p =>
            (p.2, (p.1 : ℚ) * H.scale + H.internal_radius, group_theta H g - H.minor_angle)) ++
          nl.enum.map (fun p =>
            (p.2, (p.1 : ℚ) * H.scale + H.internal_radius, group_theta H g + H.minor_angle)))) ∧
    (has_edge_within_group H g = .ok false →
      place_group H g nl = .ok
        (nl.enum.map fun p =>
          (p.2, (p.1 : ℚ) * H.scale + H.internal_radius, group_theta H g))) := by
  constructor
  · intro h
    simp only [place_group, h]
    rw [plot_nodes_eq, plot_nodes_eq,
      show group_theta H g - H.minor_angle + 2 * H.minor_angle =
        group_theta H g + H.minor_angle from by ring]
  · intro h
    simp only [place_group, h]
    rw [plot_nodes_eq]

/-- C7 witness: placements of the two groups of `hive4`, one with a
within-group edge (duplicated axis) and one without. -/
theorem c7_place_group_witness :
    place_group hive4 0 [1, 3] = .ok
      (([1, 3] : List ℕ).enum.map (fun p =>
          (p.2, (p.1 : ℚ) * hive4.scale + hive4.internal_radius,
            group_theta hive4 0 - hive4.minor_angle)) ++
        ([1, 3] : List ℕ).enum.map (fun p =>
          (p.2, (p.1 : ℚ) * hive4.scale + hive4.internal_radius,
            group_theta hive4 0 + hive4.minor_angle))) ∧
    place_group hive4 1 [5] = .ok
      (([5] : List ℕ).enum.map fun p =>
        (p.2, (p.1 : ℚ) * hive4.scale + hive4.internal_radius, group_theta hive4 1)) :=
  ⟨(c7_place_group hive4 0 [1, 3]).1
      (by norm_num [has_edge_within_group, findPair, simplified_edges, hive4, mkHivePlot]),
   (c7_place_group hive4 1 [5]).2
      (by norm_num [has_edge_within_group, findPair, simplified_edges, hive4, mkHivePlot])⟩

/-!
## Claim C1 — `adjust_angles` branches on labels, not indices
-/

/-- C1: on `hive1` (whose two groups carry the labels `1`, then `0`, in
iteration order), the cross-group edge from node `1` (group at *index* 0,
the first group) to node `3` (group at *index* 1, the last group) should,
by the claim, take the first-to-last wraparound branch and be nudged to
`(correct_negative_angle (0 - minor), correct_negative_angle (π + minor))`.
The code instead compares the *labels* (`1 = len-1`, `0 = 0`) and takes the
opposite branch, nudging start by `+minor` and end by `-minor`. -/
theorem c1_adjust_uses_labels_not_indices :
    node_theta hive1 1 = 0 ∧ node_theta hive1 3 = np_pi ∧
    has_edge_within_group hive1 1 = .ok true ∧
    has_edge_within_group hive1 0 = .ok true ∧
    adjust_angles np_pi hive1 1 (node_theta hive1 1) 3 (node_theta hive1 3) =
      .ok (np_pi / 6, 5 * np_pi / 6) ∧
    ((np_pi / 6 : ℚ), 5 * np_pi / 6) ≠
      (correct_negative_angle np_pi (0 - hive1.minor_angle),
        correct_negative_angle np_pi (np_pi + hive1.minor_angle)) := by
  refine ⟨?_, ?_, ?_, ?_, ?_, ?_⟩ <;>
    norm_num [adjust_angles, node_theta, find_node_group_membership, findMember,
      group_theta_obj, loopIdxO, maybe_nudge, hewgO, has_edge_within_group, findPair,
      simplified_edges, correct_negative_angle, pyLtO, hive1, mkHivePlot, np_pi]

/-!
## Claim C3 — the four-point curve specification
-/

/-- C3 counterexample: on `hive3`, routing the edge from node `3` (radius
`110`) to node `1` (radius `100`) puts the *first* middle control point at
radius `110`, which is `max`, not `min`, of the endpoint radii. -/
theorem c3_counterexample :
    draw_edge_polar np_pi hive3 3 1 =
      .ok ((110, 4 * np_pi / 3), (110, np_pi), (100, np_pi), (100, 2 * np_pi / 3)) ∧
    node_radius hive3 3 = .ok 110 ∧ node_radius hive3 1 = .ok 100 ∧
    min (110 : ℚ) 100 = 100 ∧ (110 : ℚ) ≠ 100 :=
  ⟨hive3_polar, hive3_node_radius_start, hive3_node_radius_end, by norm_num, by norm_num⟩

/-- C3 (amended): the emitted specification is exactly four points —
start at `(start_radius, corrected start angle)`, two middle control points
at the mean corrected angle with the first at the *start* radius and the
second at the *end* radius (the code sorts the radii with `min`/`max` and
then swaps them back when `start_radius > end_radius`, so they are at
`min`/`max` only when `start_radius ≤ end_radius`), and the end point at
`(end_radius, corrected end angle)` — the three legs after the start being
CURVE4 segments. -/
theorem c3_curve_spec (pi : ℚ) (H : HivePlot) (n1 n2 : ℕ) (r1 r2 a b : ℚ)
    (vs : List (ℝ × ℝ)) (cs : List PathCode) :
    (node_radius H n1 = .ok r1 → node_radius H n2 = .ok r2 →
      edge_angles pi H n1 n2 = .ok (a, b) →
      draw_edge_polar pi H n1 n2 =
        .ok ((r1, a), (r1, (a + b) / 2), (r2, (a + b) / 2), (r2, b))) ∧
    (draw_edge pi H n1 n2 = .ok (vs, cs) →
      cs = [PathCode.MOVETO, PathCode.CURVE4, PathCode.CURVE4, PathCode.CURVE4]) := by
  constructor
  · intro h1 h2 h3
    simp only [draw_edge_polar, h1, h2, h3]
    rcases le_or_lt r1 r2 with hle | hgt
    · rw [if_neg (not_lt.mpr hle)]
      simp [min_eq_left hle, max_eq_right hle]
    · rw [if_pos hgt]
      simp [min_eq_right hgt.le, max_eq_left hgt.le]
  · intro h
    rw [draw_edge] at h
    rcases hp : draw_edge_polar pi H n1 n2 with err | P
    · rw [hp] at h
      exact Except.noConfusion h
    · obtain ⟨p1, p2, p3, p4⟩ := P
      rw [hp] at h
      injection h with h
      exact (congrArg Prod.snd h).symm

lemma hive3_draw_edge : draw_edge np_pi hive3 3 1 =
    .ok (hive3_verts,
      [PathCode.MOVETO, PathCode.CURVE4, PathCode.CURVE4, PathCode.CURVE4]) := by
  rw [draw_edge, hive3_polar]
  rfl

/-- C3 witness: the amended curve specification evaluated on `hive3`. -/
theorem c3_curve_spec_witness :
    draw_edge_polar np_pi hive3 3 1 =
      .ok ((110, 4 * np_pi / 3), (110, (4 * np_pi / 3 + 2 * np_pi / 3) / 2),
        (100, (4 * np_pi / 3 + 2 * np_pi / 3) / 2), (100, 2 * np_pi / 3)) ∧
    ([PathCode.MOVETO, PathCode.CURVE4, PathCode.CURVE4, PathCode.CURVE4] : List PathCode) =
      [PathCode.MOVETO, PathCode.CURVE4, PathCode.CURVE4, PathCode.CURVE4] :=
  ⟨(c3_curve_spec np_pi hive3 3 1 110 100 (4 * np_pi / 3) (2 * np_pi / 3) hive3_verts
      [PathCode.MOVETO, PathCode.CURVE4, PathCode.CURVE4, PathCode.CURVE4]).1
      hive3_node_radius_start hive3_node_radius_end hive3_edge_angles,
    (c3_curve_spec np_pi hive3 3 1 110 100 (4 * np_pi / 3) (2 * np_pi / 3) hive3_verts
      [PathCode.MOVETO, PathCode.CURVE4, PathCode.CURVE4, PathCode.CURVE4]).2
      hive3_draw_edge⟩

/-!
## Claim C5 — lookup failures
-/

lemma findMember_eq_none (nodes : List (Int × List ℕ)) (node : ℕ)
    (h : ∀ p ∈ nodes, node ∉ p.2) : findMember nodes node = none := by
  induction nodes with
  | nil => rfl
  | cons p rest ih =>
      obtain ⟨g, nl⟩ := p
      rw [findMember, if_neg (h (g, nl) (List.mem_cons_self _ _))]
      exact ih fun q hq => h q (List.mem_cons_of_mem _ hq)

lemma loopIdxO_none (keys : List Int) (h : keys ≠ []) :
    loopIdxO none keys = keys.length - 1 := by
  induction keys with
  | nil => exact absurd rfl h
  | cons g rest ih =>
      cases rest with
      | nil => rfl
      | cons g2 rest2 =>
          have hstep : loopIdxO none (g :: g2 :: rest2) = loopIdxO none (g2 :: rest2) + 1 := rfl
          rw [hstep, ih (List.cons_ne_nil _ _)]
          simp only [List.length_cons]
          omega

lemma findPair_eq_none (nodes : List (Int × List ℕ)) (g : Int)
    (h : g ∉ nodes.map Prod.fst) : findPair nodes g = none := by
  induction nodes with
  | nil => rfl
  | cons p rest ih =>
      obtain ⟨g2, nl⟩ := p
      rw [findPair, if_neg fun he => h (by subst he; simp)]
      exact ih fun hm => h (by simp [hm])

/-- C5 (amended): for a node absent from every group sequence, the ordinal
and node-radius queries — and hence the routing of any edge naming the node —
fail with `KeyError` (a `LookupError`, raised by the `None`-keyed dict
lookup); but the membership query itself silently returns `None`, the
node-angle query silently returns the *last* group's base angle, and
querying an unrecognized group in `has_edge_within_group` fails with
`AssertionError`, which is not a `LookupError`. -/
theorem c5_lookup_behavior (pi : ℚ) (H : HivePlot) (node : ℕ) (g : Int) (n2 : ℕ)
    (hnode : ∀ p ∈ H.nodes, node ∉ p.2) (hg : g ∉ H.nodes.map Prod.fst)
    (hne : H.nodes ≠ []) :
    find_node_group_membership H node = none ∧
    get_idx H node = .error .keyError ∧
    node_radius H node = .error .keyError ∧
    edge_angles pi H node n2 = .error .keyError ∧
    PyError.keyError.isLookupError = true ∧
    node_theta H node = ((H.nodes.length - 1 : ℕ) : ℚ) * H.major_angle ∧
    has_edge_within_group H g = .error .assertionError ∧
    PyError.assertionError.isLookupError = false := by
  have hmem : find_node_group_membership H node = none := findMember_eq_none _ _ hnode
  have hidx : get_idx H node = .error .keyError := by
    simp only [get_idx, hmem]
  have hrad : node_radius H node = .error .keyError := by
    simp only [node_radius, hidx]
  refine ⟨hmem, hidx, hrad, ?_, rfl, ?_, ?_, rfl⟩
  · simp only [edge_angles, hrad]
  · have hkeys : H.nodes.map Prod.fst ≠ [] := fun hmap => hne (by simpa using hmap)
    rw [node_theta, hmem, group_theta_obj, loopIdxO_none _ hkeys, List.length_map]
  · rw [has_edge_within_group, findPair_eq_none _ _ hg]

/-- C5 counterexample: on `hive5`, the node `99` belongs to no group, yet the
node-angle query returns the last group's base angle `π` without any error,
and the unknown-group query fails with `AssertionError`, which is not a
`LookupError`. -/
theorem c5_counterexample :
    find_node_group_membership hive5 99 = none ∧
    node_theta hive5 99 = np_pi ∧
    has_edge_within_group hive5 7 = .error .assertionError ∧
    PyError.assertionError.isLookupError = false := by
  refine ⟨by decide, ?_, ?_, rfl⟩
  · norm_num [node_theta, find_node_group_membership, findMember, group_theta_obj,
      loopIdxO, hive5, mkHivePlot, np_pi]
    decide
  · rw [has_edge_within_group, findPair_eq_none _ _ (by decide)]

/-- C5 witness: the amended lookup behavior evaluated on `hive5`. -/
theorem c5_lookup_behavior_witness :
    find_node_group_membership hive5 99 = none ∧
    get_idx hive5 99 = .error .keyError ∧
    node_radius hive5 99 = .error .keyError ∧
    edge_angles np_pi hive5 99 3 = .error .keyError ∧
    PyError.keyError.isLookupError = true ∧
    node_theta hive5 99 = ((hive5.nodes.length - 1 : ℕ) : ℚ) * hive5.major_angle ∧
    has_edge_within_group hive5 7 = .error .assertionError ∧
    PyError.assertionError.isLookupError = false :=
  c5_lookup_behavior np_pi hive5 99 7 3 (by decide) (by decide) (by decide)

/-!
## Claim C4 — range of the corrected angles
-/

lemma loopIdxO_cons_eq (t : Option Int) (g : Int) (rest : List Int) :
    loopIdxO t (g :: rest) =
      if some g = t then 0
      else
        match rest with
        | [] => 0
        | _ :: _ => loopIdxO t rest + 1 := by
  rw [loopIdxO.eq_def]

lemma loopIdxO_single (t : Option Int) (g : Int) : loopIdxO t [g] = 0 := by
  rw [loopIdxO_cons_eq]
  split_ifs <;> rfl

lemma loopIdxO_head (t : Option Int) (g : Int) (rest : List Int) (h : some g = t) :
    loopIdxO t (g :: rest) = 0 := by
  rw [loopIdxO_cons_eq, if_pos h]

lemma loopIdxO_tail (t : Option Int) (g g2 : Int) (rest : List Int) (h : ¬some g = t) :
    loopIdxO t (g :: g2 :: rest) = loopIdxO t (g2 :: rest) + 1 := by
  rw [loopIdxO_cons_eq, if_neg h]

lemma loopIdxO_lt (t : Option Int) (keys : List Int) (h : keys ≠ []) :
    loopIdxO t keys < keys.length := by
  induction keys with
  | nil => exact absurd rfl h
  | cons g rest ih =>
      cases rest with
      | nil => simp [loopIdxO_single]
      | cons g2 r2 =>
          by_cases hg : some g = t
          · rw [loopIdxO_head t g _ hg]
            simp
          · rw [loopIdxO_tail t g g2 r2 hg]
            have := ih (List.cons_ne_nil _ _)
            simp only [List.length_cons] at this ⊢
            omega

lemma loopIdxO_inj (keys : List Int) (g1 g2 : Int)
    (h1 : g1 ∈ keys) (h2 : g2 ∈ keys)
    (heq : loopIdxO (some g1) keys = loopIdxO (some g2) keys) : g1 = g2 := by
  induction keys with
  | nil => exact absurd h1 (List.not_mem_nil _)
  | cons k rest ih =>
      by_cases e1 : k = g1
      · by_cases e2 : k = g2
        · rw [← e1, e2]
        · exfalso
          have hg2r : g2 ∈ rest := by
            rcases List.mem_cons.mp h2 with hh | hh
            · exact absurd hh.symm e2
            · exact hh
          cases rest with
          | nil => exact absurd hg2r (List.not_mem_nil _)
          | cons k2 r2 =>
              rw [loopIdxO_head (some g1) k (k2 :: r2) (by rw [e1]),
                loopIdxO_tail (some g2) k k2 r2 (by simpa using e2)] at heq
              omega
      · by_cases e2 : k = g2
        · exfalso
          have hg1r : g1 ∈ rest := by
            rcases List.mem_cons.mp h1 with hh | hh
            · exact absurd hh.symm e1
            · exact hh
          cases rest with
          | nil => exact absurd hg1r (List.not_mem_nil _)
          | cons k2 r2 =>
              rw [loopIdxO_head (some g2) k (k2 :: r2) (by rw [e2]),
                loopIdxO_tail (some g1) k k2 r2 (by simpa using e1)] at heq
              omega
        · have hg1r : g1 ∈ rest := by
            rcases List.mem_cons.mp h1 with hh | hh
            · exact absurd hh.symm e1
            · exact hh
          have hg2r : g2 ∈ rest := by
            rcases List.mem_cons.mp h2 with hh | hh
            · exact absurd hh.symm e2
            · exact hh
          cases rest with
          | nil => exact absurd hg1r (List.not_mem_nil _)
          | cons k2 r2 =>
              rw [loopIdxO_tail (some g1) k k2 r2 (by simpa using e1),
                loopIdxO_tail (some g2) k k2 r2 (by simpa using e2)] at heq
              exact ih hg1r hg2r (by omega)

lemma mem_keys_of_findMember (nodes : List (Int × List ℕ)) (node : ℕ) (g : Int)
    (h : findMember nodes node = some g) : g ∈ nodes.map Prod.fst := by
  induction nodes with
  | nil => exact Option.noConfusion h
  | cons p rest ih =>
      obtain ⟨g2, nl⟩ := p
      rw [findMember] at h
      rw [List.map_cons]
      by_cases hmem : node ∈ nl
      · rw [if_pos hmem] at h
        injection h with h
        subst h
        exact List.mem_cons_self _ _
      · rw [if_neg hmem] at h
        exact List.mem_cons_of_mem _ (ih h)

lemma correct_negative_angle_nonneg (pi x : ℚ) (h : 0 ≤ x) :
    correct_negative_angle pi x = x := by
  rw [correct_negative_angle, if_neg (not_lt.mpr h)]

/-- Bound on one `adjust_angles` output component: each component is either
unchanged or a `±minor_angle` nudge passed through
`correct_negative_angle`. -/
lemma nudge_bound (pi m x v : ℚ) (hm0 : 0 < m) (hmpi : m ≤ pi)
    (hx1 : -m ≤ x) (hx2 : x ≤ 2 * pi)
    (hv : v = x ∨ v = correct_negative_angle pi (x + m) ∨
      v = correct_negative_angle pi (x - m)) :
    -m ≤ v ∧ v ≤ 2 * pi + m := by
  rcases hv with h | h | h <;> subst h
  · constructor <;> linarith
  · rw [correct_negative_angle_nonneg pi _ (by linarith)]
    constructor <;> linarith
  · rw [correct_negative_angle]
    split_ifs with hneg
    · constructor <;> linarith
    · constructor <;> linarith

lemma group_theta_obj_bounds (pi : ℚ) (H : HivePlot) (t : Option Int) (hpi : 0 < pi)
    (hmaj : H.major_angle = 2 * pi / (H.nodes.length : ℚ)) (hne : H.nodes ≠ []) :
    0 ≤ group_theta_obj H t ∧ group_theta_obj H t < 2 * pi := by
  have hkeys : H.nodes.map Prod.fst ≠ [] := fun hmap => hne (by simpa using hmap)
  have hnQ : (0 : ℚ) < (H.nodes.length : ℚ) := by
    exact_mod_cast List.length_pos.mpr hne
  have hA : 0 < H.major_angle := by
    rw [hmaj]
    positivity
  have hlt : loopIdxO t (H.nodes.map Prod.fst) < H.nodes.length := by
    have := loopIdxO_lt t _ hkeys
    rwa [List.length_map] at this
  have hiq : (loopIdxO t (H.nodes.map Prod.fst) : ℚ) ≤ (H.nodes.length : ℚ) - 1 := by
    have h' : loopIdxO t (H.nodes.map Prod.fst) + 1 ≤ H.nodes.length := hlt
    have h'' : ((loopIdxO t (H.nodes.map Prod.fst) : ℚ) + 1) ≤ (H.nodes.length : ℚ) := by
      exact_mod_cast h'
    linarith
  constructor
  · exact mul_nonneg (Nat.cast_nonneg _) hA.le
  · rw [group_theta_obj, hmaj]
    calc (loopIdxO t (H.nodes.map Prod.fst) : ℚ) * (2 * pi / (H.nodes.length : ℚ))
        ≤ ((H.nodes.length : ℚ) - 1) * (2 * pi / (H.nodes.length : ℚ)) := by
          exact mul_le_mul_of_nonneg_right hiq (by positivity)
      _ < 2 * pi := by
          have hsplit : ((H.nodes.length : ℚ) - 1) * (2 * pi / (H.nodes.length : ℚ)) =
              2 * pi - 2 * pi / (H.nodes.length : ℚ) := by
            field_simp
            ring
          rw [hsplit]
          have : 0 < 2 * pi / (H.nodes.length : ℚ) := by positivity
          linarith

lemma maybe_nudge_cases (pi : ℚ) (H : HivePlot) (g : Option Int) (x d y : ℚ)
    (h : maybe_nudge pi H g x d = .ok y) :
    y = x ∨ y = correct_negative_angle pi (x + d) := by
  rw [maybe_nudge] at h
  rcases hw : hewgO H g with err | bb
  · rw [hw] at h
    exact Except.noConfusion h
  · rw [hw] at h
    cases bb
    · injection h with h
      exact Or.inl h.symm
    · injection h with h
      exact Or.inr h.symm

/-- Each output component of a successful `adjust_angles` is the input angle,
or the input nudged by `±minor_angle` through `correct_negative_angle`. -/
lemma adjust_angles_cases (pi : ℚ) (H : HivePlot) (n1 n2 : ℕ) (s e a b : ℚ)
    (h : adjust_angles pi H n1 s n2 e = .ok (a, b)) :
    (a = s ∨ a = correct_negative_angle pi (s + H.minor_angle) ∨
      a = correct_negative_angle pi (s - H.minor_angle)) ∧
    (b = e ∨ b = correct_negative_angle pi (e + H.minor_angle) ∨
      b = correct_negative_angle pi (e - H.minor_angle)) := by
  have hsub : ∀ x : ℚ, x + -H.minor_angle = x - H.minor_angle := fun x => by ring
  rw [adjust_angles] at h
  split_ifs at h
  · -- first/last wraparound branch: start - minor, end + minor
    rcases hs : maybe_nudge pi H (find_node_group_membership H n1) s (-H.minor_angle)
      with err | s2
    · rw [hs] at h
      exact Except.noConfusion h
    rw [hs] at h
    rcases he : maybe_nudge pi H (find_node_group_membership H n2) e H.minor_angle
      with err | e2
    · rw [he] at h
      exact Except.noConfusion h
    rw [he] at h
    injection h with h
    rw [Prod.mk.injEq] at h
    obtain ⟨ha, hb⟩ := h
    subst ha
    subst hb
    refine ⟨?_, ?_⟩
    · rcases maybe_nudge_cases pi H _ s _ s2 hs with h' | h'
      · exact Or.inl h'
      · rw [hsub] at h'
        exact Or.inr (Or.inr h')
    · rcases maybe_nudge_cases pi H _ e _ e2 he with h' | h'
      · exact Or.inl h'
      · exact Or.inr (Or.inl h')
  · -- last/first wraparound branch: start + minor, end - minor
    rcases hs : maybe_nudge pi H (find_node_group_membership H n1) s H.minor_angle
      with err | s2
    · rw [hs] at h
      exact Except.noConfusion h
    rw [hs] at h
    rcases he : maybe_nudge pi H (find_node_group_membership H n2) e (-H.minor_angle)
      with err | e2
    · rw [he] at h
      exact Except.noConfusion h
    rw [he] at h
    injection h with h
    rw [Prod.mk.injEq] at h
    obtain ⟨ha, hb⟩ := h
    subst ha
    subst hb
    refine ⟨?_, ?_⟩
    · rcases maybe_nudge_cases pi H _ s _ s2 hs with h' | h'
      · exact Or.inl h'
      · exact Or.inr (Or.inl h')
    · rcases maybe_nudge_cases pi H _ e _ e2 he with h' | h'
      · exact Or.inl h'
      · rw [hsub] at h'
        exact Or.inr (Or.inr h')
  · -- label-comparison branches
    rcases hlt : pyLtO (find_node_group_membership H n1) (find_node_group_membership H n2)
      with err | bb
    · rw [hlt] at h
      exact Except.noConfusion h
    rw [hlt] at h
    cases bb
    · -- start_group not < end_group: test the reverse order
      rcases hlt2 : pyLtO (find_node_group_membership H n2) (find_node_group_membership H n1)
        with err | bb2
      · rw [hlt2] at h
        exact Except.noConfusion h
      rw [hlt2] at h
      cases bb2
      · -- neither: unchanged
        injection h with h
        rw [Prod.mk.injEq] at h
        obtain ⟨ha, hb⟩ := h
        exact ⟨Or.inl ha.symm, Or.inl hb.symm⟩
      · -- end_group < start_group: start - minor, end + minor
        rcases hs : maybe_nudge pi H (find_node_group_membership H n1) s (-H.minor_angle)
          with err | s2
        · rw [hs] at h
          exact Except.noConfusion h
        rw [hs] at h
        rcases he : maybe_nudge pi H (find_node_group_membership H n2) e H.minor_angle
          with err | e2
        · rw [he] at h
          exact Except.noConfusion h
        rw [he] at h
        injection h with h
        rw [Prod.mk.injEq] at h
        obtain ⟨ha, hb⟩ := h
        subst ha
        subst hb
        refine ⟨?_, ?_⟩
        · rcases maybe_nudge_cases pi H _ s _ s2 hs with h' | h'
          · exact Or.inl h'
          · rw [hsub] at h'
            exact Or.inr (Or.inr h')
        · rcases maybe_nudge_cases pi H _ e _ e2 he with h' | h'
          · exact Or.inl h'
          · exact Or.inr (Or.inl h')
    · -- start_group < end_group: end - minor (first), start + minor (second)
      rcases he : maybe_nudge pi H (find_node_group_membership H n2) e (-H.minor_angle)
        with err | e2
      · rw [he] at h
        exact Except.noConfusion h
      rw [he] at h
      rcases hs : maybe_nudge pi H (find_node_group_membership H n1) s H.minor_angle
        with err | s2
      · rw [hs] at h
        exact Except.noConfusion h
      rw [hs] at h
      injection h with h
      rw [Prod.mk.injEq] at h
      obtain ⟨ha, hb⟩ := h
      subst ha
      subst hb
      refine ⟨?_, ?_⟩
      · rcases maybe_nudge_cases pi H _ s _ s2 hs with h' | h'
        · exact Or.inl h'
        · exact Or.inr (Or.inl h')
      · rcases maybe_nudge_cases pi H _ e _ e2 he with h' | h'
        · exact Or.inl h'
        · rw [hsub] at h'
          exact Or.inr (Or.inr h')

/-- When both endpoints are in the same group and the group label is not the
degenerate `0 = len - 1` case, `adjust_angles` returns its inputs. -/
lemma adjust_angles_same (pi : ℚ) (H : HivePlot) (n1 n2 : ℕ) (g : Int) (s e : ℚ)
    (h1 : find_node_group_membership H n1 = some g)
    (h2 : find_node_group_membership H n2 = some g)
    (hno : ¬(g = 0 ∧ g = (H.nodes.length : Int) - 1)) :
    adjust_angles pi H n1 s n2 e = .ok (s, e) := by
  simp only [adjust_angles, h1, h2]
  rw [if_neg fun hc => hno ⟨Option.some_inj.mp hc.1, Option.some_inj.mp hc.2⟩,
    if_neg fun hc => hno ⟨Option.some_inj.mp hc.2, Option.some_inj.mp hc.1⟩]
  simp [pyLtO, lt_irrefl]

lemma correct_angles_of_eq (pi : ℚ) (H : HivePlot) (s e : ℚ) (hpi : 0 < pi)
    (hse : s = e) :
    correct_angles pi H s e = (s - H.minor_angle, e + H.minor_angle) := by
  subst hse
  have hA : ¬(s = 0 ∧ s - s > pi) := fun hc => by linarith [hc.2]
  have hB : ¬(s = 0 ∧ s - s < -pi) := fun hc => by linarith [hc.2]
  simp only [correct_angles, if_neg hA, if_neg hB, if_pos rfl, if_true]

lemma correct_angles_of_ne (pi : ℚ) (H : HivePlot) (s e : ℚ) (hpi : 0 < pi)
    (hs2 : s < 2 * pi) (he2 : e < 2 * pi) (hne : s ≠ e) :
    correct_angles pi H s e = (s, e) ∨
    correct_angles pi H s e = (2 * pi, e) ∨
    correct_angles pi H s e = (s, 2 * pi) := by
  simp only [correct_angles]
  by_cases h1 : s = 0 ∧ e - s > pi
  · rw [if_pos h1]
    have h2 : ¬(e = 0 ∧ e - 2 * pi < -pi) := fun hc => by
      obtain ⟨hs, hgt⟩ := h1
      rw [hc.1, hs] at hgt
      linarith
    rw [if_neg h2, if_neg (show ¬(2 * pi = e) from fun hh => by linarith)]
    exact Or.inr (Or.inl rfl)
  · rw [if_neg h1]
    by_cases h2 : e = 0 ∧ e - s < -pi
    · rw [if_pos h2, if_neg (show ¬(s = 2 * pi) from fun hh => by linarith)]
      exact Or.inr (Or.inr rfl)
    · rw [if_neg h2, if_neg hne]
      exact Or.inl rfl

/-- C4 (amended): for a successfully routed edge the two pipeline output
angles lie in `[-minor_angle, 2π + minor_angle]` — not in `[0, 2π)` as
claimed: only the `adjust_angles` nudges pass through the negative-angle
correction, while the equal-angle widening of `correct_angles` can output a
negative angle and the seam flip can output `2π` (or, nudged, beyond). -/
theorem c4_angle_range (pi : ℚ) (H : HivePlot) (n1 n2 : ℕ) (a b : ℚ)
    (hpi : 0 < pi)
    (hmaj : H.major_angle = 2 * pi / (H.nodes.length : ℚ))
    (hm0 : 0 < H.minor_angle) (hmpi : H.minor_angle ≤ pi)
    (h : edge_angles pi H n1 n2 = .ok (a, b)) :
    -H.minor_angle ≤ a ∧ a ≤ 2 * pi + H.minor_angle ∧
    -H.minor_angle ≤ b ∧ b ≤ 2 * pi + H.minor_angle := by
  -- invert the radius computations
  rcases hr1 : node_radius H n1 with err | r1
  · rw [edge_angles, hr1] at h
    exact Except.noConfusion h
  rcases hr2 : node_radius H n2 with err | r2
  · rw [edge_angles, hr1, hr2] at h
    exact Except.noConfusion h
  rw [edge_angles, hr1, hr2] at h
  replace h : adjust_angles pi H n1
      (correct_angles pi H (node_theta H n1) (node_theta H n2)).1 n2
      (correct_angles pi H (node_theta H n1) (node_theta H n2)).2 = .ok (a, b) := h
  -- both memberships are defined
  have hg1 : ∃ g, find_node_group_membership H n1 = some g := by
    rcases hmm : find_node_group_membership H n1 with _ | g
    · rw [node_radius, get_idx, hmm] at hr1
      exact Except.noConfusion hr1
    · exact ⟨g, rfl⟩
  have hg2 : ∃ g, find_node_group_membership H n2 = some g := by
    rcases hmm : find_node_group_membership H n2 with _ | g
    · rw [node_radius, get_idx, hmm] at hr2
      exact Except.noConfusion hr2
    · exact ⟨g, rfl⟩
  obtain ⟨g1, hg1⟩ := hg1
  obtain ⟨g2, hg2⟩ := hg2
  have hne : H.nodes ≠ [] := by
    intro hnil
    rw [find_node_group_membership, hnil, findMember] at hg1
    exact Option.noConfusion hg1
  -- bounds on the raw angles
  have hb1 : 0 ≤ node_theta H n1 ∧ node_theta H n1 < 2 * pi :=
    group_theta_obj_bounds pi H (find_node_group_membership H n1) hpi hmaj hne
  have hb2 : 0 ≤ node_theta H n2 ∧ node_theta H n2 < 2 * pi :=
    group_theta_obj_bounds pi H (find_node_group_membership H n2) hpi hmaj hne
  by_cases hgg : g1 = g2
  · -- same group: the two raw angles coincide and the pair is widened
    rw [← hgg] at hg2
    have hsame : node_theta H n1 = node_theta H n2 := by
      rw [node_theta, node_theta, hg1, hg2]
    rw [correct_angles_of_eq pi H _ _ hpi hsame] at h
    replace h : adjust_angles pi H n1 (node_theta H n1 - H.minor_angle) n2
        (node_theta H n2 + H.minor_angle) = .ok (a, b) := h
    by_cases hbr : g1 = 0 ∧ g1 = (H.nodes.length : Int) - 1
    · -- single group labelled 0: both raw angles are 0
      have hn1 : H.nodes.length = 1 := by
        have hb := hbr.2
        rw [hbr.1] at hb
        omega
      have htheta1 : node_theta H n1 = 0 := by
        rw [node_theta, group_theta_obj]
        obtain ⟨k, hk⟩ := List.length_eq_one.mp
          (show (H.nodes.map Prod.fst).length = 1 by rw [List.length_map]; exact hn1)
        rw [hk, loopIdxO_single]
        norm_num
      have htheta2 : node_theta H n2 = 0 := by rw [← hsame, htheta1]
      rw [htheta1, htheta2] at h
      obtain ⟨hca, hcb⟩ := adjust_angles_cases pi H n1 n2 _ _ a b h
      have hba := nudge_bound pi H.minor_angle (0 - H.minor_angle) a hm0 hmpi
        (by linarith) (by linarith) hca
      have hbb := nudge_bound pi H.minor_angle (0 + H.minor_angle) b hm0 hmpi
        (by linarith) (by linarith) hcb
      exact ⟨hba.1, hba.2, hbb.1, hbb.2⟩
    · -- otherwise no branch of adjust_angles fires
      rw [adjust_angles_same pi H n1 n2 g1 _ _ hg1 hg2 hbr] at h
      injection h with h
      rw [Prod.mk.injEq] at h
      obtain ⟨ha, hb⟩ := h
      subst ha
      subst hb
      exact ⟨by linarith [hb1.1], by linarith [hb1.2], by linarith [hb2.1],
        by linarith [hb2.2]⟩
  · -- different groups: the raw angles differ, no widening
    have hth_ne : node_theta H n1 ≠ node_theta H n2 := by
      rw [node_theta, node_theta, hg1, hg2, group_theta_obj, group_theta_obj]
      intro heq
      have hAne : H.major_angle ≠ 0 := by
        rw [hmaj]
        have hnQ : (0 : ℚ) < (H.nodes.length : ℚ) := by
          exact_mod_cast List.length_pos.mpr hne
        positivity
      have hidx : (loopIdxO (some g1) (H.nodes.map Prod.fst) : ℚ) =
          (loopIdxO (some g2) (H.nodes.map Prod.fst) : ℚ) :=
        mul_right_cancel₀ hAne heq
      have hidxN : loopIdxO (some g1) (H.nodes.map Prod.fst) =
          loopIdxO (some g2) (H.nodes.map Prod.fst) := by
        exact_mod_cast hidx
      exact hgg (loopIdxO_inj _ g1 g2
        (mem_keys_of_findMember _ _ _ hg1) (mem_keys_of_findMember _ _ _ hg2) hidxN)
    rcases correct_angles_of_ne pi H _ _ hpi hb1.2 hb2.2 hth_ne with hc | hc | hc
    · rw [hc] at h
      replace h : adjust_angles pi H n1 (node_theta H n1) n2 (node_theta H n2) =
          .ok (a, b) := h
      obtain ⟨hca, hcb⟩ := adjust_angles_cases pi H n1 n2 _ _ a b h
      have hba := nudge_bound pi H.minor_angle _ a hm0 hmpi
        (by linarith [hb1.1]) (by linarith [hb1.2]) hca
      have hbb := nudge_bound pi H.minor_angle _ b hm0 hmpi
        (by linarith [hb2.1]) (by linarith [hb2.2]) hcb
      exact ⟨hba.1, hba.2, hbb.1, hbb.2⟩
    · rw [hc] at h
      replace h : adjust_angles pi H n1 (2 * pi) n2 (node_theta H n2) =
          .ok (a, b) := h
      obtain ⟨hca, hcb⟩ := adjust_angles_cases pi H n1 n2 _ _ a b h
      have hba := nudge_bound pi H.minor_angle _ a hm0 hmpi
        (by linarith) (by linarith) hca
      have hbb := nudge_bound pi H.minor_angle _ b hm0 hmpi
        (by linarith [hb2.1]) (by linarith [hb2.2]) hcb
      exact ⟨hba.1, hba.2, hbb.1, hbb.2⟩
    · rw [hc] at h
      replace h : adjust_angles pi H n1 (node_theta H n1) n2 (2 * pi) =
          .ok (a, b) := h
      obtain ⟨hca, hcb⟩ := adjust_angles_cases pi H n1 n2 _ _ a b h
      have hba := nudge_bound pi H.minor_angle _ a hm0 hmpi
        (by linarith [hb1.1]) (by linarith [hb1.2]) hca
      have hbb := nudge_bound pi H.minor_angle _ b hm0 hmpi
        (by linarith) (by linarith) hcb
      exact ⟨hba.1, hba.2, hbb.1, hbb.2⟩

/-- C4 counterexample: on `hive4`, the within-group edge `(1, 3)` sits at the
zero angle, `correct_angles` widens the equal pair to
`(-minor_angle, minor_angle)`, no `adjust_angles` branch re-normalizes it,
and the pipeline outputs a negative start angle — outside `[0, 2π)`. -/
theorem c4_counterexample :
    edge_angles np_pi hive4 1 3 = .ok (-np_pi / 6, np_pi / 6) ∧
    ¬(0 ≤ -np_pi / 6) :=
  ⟨hive4_edge_angles, by norm_num [np_pi]⟩

/-- C4 witness: the amended range evaluated on the routed edge `(1, 3)` of
`hive4`. -/
theorem c4_angle_range_witness :
    -hive4.minor_angle ≤ -np_pi / 6 ∧ -np_pi / 6 ≤ 2 * np_pi + hive4.minor_angle ∧
    -hive4.minor_angle ≤ np_pi / 6 ∧ np_pi / 6 ≤ 2 * np_pi + hive4.minor_angle :=
  c4_angle_range np_pi hive4 1 3 (-np_pi / 6) (np_pi / 6) np_pi_pos rfl
    (by norm_num [hive4, mkHivePlot, np_pi]) (by norm_num [hive4, mkHivePlot, np_pi])
    hive4_edge_angles
